import Mathlib

/-!
Verification development for the cross-view ray correspondence engine of
`find_multiview_track.cpp`.

Conventions of the shallow embedding:

* C++ `double` is embedded as `ℚ`; every arithmetic step of the source is
  mirrored exactly.  The two unchecked divisions `-a3 / b3` flagged by the
  safety analysis are embedded through `qdiv`, which returns an error on a
  zero denominator (IEEE would produce an infinity that poisons the rest of
  the computation); all other divisions use total `ℚ` division.
* `cv::norm(x - y) - delta` is a real number of the form `√d2 - δ` with
  `d2, δ : ℚ`.  The program only ever uses its sign, so it is embedded
  exactly as the pair `DistErr` together with the decidable `DistErr.sign`.
* The unbounded `while` loops of the source (`bisect`'s tolerance loop, the
  doubling search and the quantization loop) are embedded with explicit
  fuel; running out of fuel is the error `RunErr.fuelOut`, and the fatal
  `CHECK` failures of the source are the errors `RunErr.limitCycle` (the
  limit-cycle guard) and `RunErr.divByZero`.
* The camera / distortion / container support code (`camera.hpp`,
  `distortion.hpp`, `track.hpp`, `util.hpp`) is not part of the analysed
  sources; those primitives are modelled from the specification and are
  marked `Modelled from the spec:` in their doc comments.
-/

/-! ## Scalar and vector primitives -/

abbrev Q2 := ℚ × ℚ
abbrev Q3 := ℚ × ℚ × ℚ
abbrev Q4 := ℚ × ℚ × ℚ × ℚ

def add3 (a b : Q3) : Q3 := (a.1 + b.1, a.2.1 + b.2.1, a.2.2 + b.2.2)

def sub3 (a b : Q3) : Q3 := (a.1 - b.1, a.2.1 - b.2.1, a.2.2 - b.2.2)

def smul3 (s : ℚ) (a : Q3) : Q3 := (s * a.1, s * a.2.1, s * a.2.2)

def neg3 (a : Q3) : Q3 := (-a.1, -a.2.1, -a.2.2)

def dot3 (a b : Q3) : ℚ := a.1 * b.1 + a.2.1 * b.2.1 + a.2.2 * b.2.2

def cross3 (a b : Q3) : Q3 :=
  (a.2.1 * b.2.2 - a.2.2 * b.2.1,
   a.2.2 * b.1 - a.1 * b.2.2,
   a.1 * b.2.1 - a.2.1 * b.1)

def dot4 (a b : Q4) : ℚ :=
  a.1 * b.1 + a.2.1 * b.2.1 + a.2.2.1 * b.2.2.1 + a.2.2.2 * b.2.2.2

/-- Squared Euclidean norm of a 2D point. -/
def normSq (p : Q2) : ℚ := p.1 * p.1 + p.2 * p.2

/-- Squared pixel distance between two 2D points. -/
def distSq (p q : Q2) : ℚ := normSq (p.1 - q.1, p.2 - q.2)

/-- Rows of a 3×3 matrix. -/
abbrev Mat3 := Q3 × Q3 × Q3

/-- Rows of a 3×4 matrix. -/
abbrev Mat34 := Q4 × Q4 × Q4

def mat3vec (M : Mat3) (x : Q3) : Q3 := (dot3 M.1 x, dot3 M.2.1 x, dot3 M.2.2 x)

def mat34vec (M : Mat34) (x : Q4) : Q3 :=
  (dot4 M.1 x, dot4 M.2.1 x, dot4 M.2.2 x)

/-! ## Homogeneous-coordinate helpers (util.hpp) -/

/-- Modelled from the spec: `imagePointToHomogeneous` appends weight 1. -/
def imagePointToHomogeneous (p : Q2) : Q3 := (p.1, p.2, 1)

/-- Modelled from the spec: `imagePointFromHomogeneous` re-normalizes by the
third coordinate (total `ℚ` division). -/
def imagePointFromHomogeneous (X : Q3) : Q2 := (X.1 / X.2.2, X.2.1 / X.2.2)

/-- Modelled from the spec: `worldPointToHomogeneous` appends the given
weight (1 for points, 0 for directions). -/
def worldPointToHomogeneous (p : Q3) (w : ℚ) : Q4 := (p.1, p.2.1, p.2.2, w)

/-! ## Distortion model (distortion.hpp) -/

/-- Modelled from the spec: division-style radial distortion — the distorted
position is the calibrated point scaled by a rational function of its
calibrated radius. -/
def distort (p : Q2) (w : ℚ) : Q2 :=
  (p.1 / (1 + w * normSq p), p.2 / (1 + w * normSq p))

/-- Modelled from the spec: validity domain of the division-model inverse — a
point is undistortable iff its distorted radius is within the fixed domain
bound (the discriminant `1 - 4 w |x|²` of the inversion quadratic is
nonnegative).  The polarity (true on invertible points) is fixed by the
analysed caller `indexedPointIsNotUndistortable`, which negates it. -/
def isUndistortable (x : Q2) (w : ℚ) : Bool :=
  decide (0 ≤ 1 - 4 * w * normSq x)

/-- An undistorted point.  Modelled from the spec: `undistort` inverts the
division-model distortion on its validity domain; the exact value
`x · 2 / (1 + √(1 - 4 w |x|²))` has an irrational scale for general rational
inputs, so it is represented exactly by the distorted point together with the
discriminant of the inversion quadratic. -/
structure UPoint where
  base : Q2
  disc : ℚ
deriving DecidableEq, Repr

/-- Modelled from the spec: `undistort` (exact symbolic representation). -/
def undistort (x : Q2) (w : ℚ) : UPoint :=
  ⟨x, 1 - 4 * w * normSq x⟩

/-- Modelled from the spec: a direction (a point with zero homogeneous
weight) still has a finite distorted position; in this division model the
distorted image of every direction is the distortion center, the limit of
`distort` along the direction for a nonzero distortion parameter. -/
def distortPointAtInfinity (_d : Q2) (_w : ℚ) : Q2 :=
  (0, 0)

/-! ## Camera model (camera.hpp) -/

/-- Modelled from the spec: intrinsic calibration — focal lengths, principal
point and the distortion parameter `distort_w`. -/
structure CameraProperties where
  fx : ℚ
  fy : ℚ
  px : ℚ
  py : ℚ
  distort_w : ℚ
deriving DecidableEq, Repr

/-- Modelled from the spec: the calibration matrix of `CameraProperties`. -/
def CameraProperties.matrix (intr : CameraProperties) : Mat3 :=
  ((intr.fx, 0, intr.px), (0, intr.fy, intr.py), (0, 0, 1))

/-- Modelled from the spec: the inverse of the calibration matrix (the
source computes `intrinsics.matrix().inv()`). -/
def CameraProperties.matrixInv (intr : CameraProperties) : Mat3 :=
  ((1 / intr.fx, 0, -intr.px / intr.fx),
   (0, 1 / intr.fy, -intr.py / intr.fy),
   (0, 0, 1))

/-- Modelled from the spec: `uncalibrate` maps a calibrated coordinate to a
pixel coordinate. -/
def CameraProperties.uncalibrate (intr : CameraProperties) (p : Q2) : Q2 :=
  (intr.fx * p.1 + intr.px, intr.fy * p.2 + intr.py)

/-- Modelled from the spec: `distortAndUncalibrate` composes distortion with
intrinsic uncalibration. -/
def CameraProperties.distortAndUncalibrate (intr : CameraProperties) (p : Q2) : Q2 :=
  intr.uncalibrate (distort p intr.distort_w)

/-- Modelled from the spec: extrinsic pose — orthonormal rotation plus camera
center. -/
structure CameraPose where
  rotation : Mat3
  center : Q3
deriving DecidableEq, Repr

/-- Modelled from the spec: the 3×4 extrinsic projection matrix
`[R | -R·center]`. -/
def CameraPose.pmatrix (pose : CameraPose) : Mat34 :=
  let t := neg3 (mat3vec pose.rotation pose.center)
  ((pose.rotation.1.1, pose.rotation.1.2.1, pose.rotation.1.2.2, t.1),
   (pose.rotation.2.1.1, pose.rotation.2.1.2.1, pose.rotation.2.1.2.2, t.2.1),
   (pose.rotation.2.2.1, pose.rotation.2.2.2.1, pose.rotation.2.2.2.2, t.2.2))

/-- Modelled from the spec: a camera is intrinsics plus extrinsics. -/
structure Camera where
  intrinsics : CameraProperties
  extrinsics : CameraPose
deriving DecidableEq, Repr

/-- A view other than the reference view (source `struct OtherView`). -/
structure OtherView where
  index : ℤ
  camera : Camera
deriving DecidableEq, Repr

/-- Source `extractCameraFromOtherView`. -/
def extractCameraFromOtherView (view : OtherView) : Camera := view.camera

/-! ## Track calibrator (`calibrateAndUndistortTrack`) -/

/-- Source `calibrateIndexedPoint`: homogeneous multiply by `K⁻¹` and
re-normalize, keeping the frame index. -/
def calibrateIndexedPoint (point : ℤ × Q2) (Kinv : Mat3) : ℤ × Q2 :=
  (point.1, imagePointFromHomogeneous (mat3vec Kinv (imagePointToHomogeneous point.2)))

/-- Source `indexedPointIsNotUndistortable`. -/
def indexedPointIsNotUndistortable (point : ℤ × Q2) (w : ℚ) : Bool :=
  ! isUndistortable point.2 w

/-- Source `undistortIndexedPoint`. -/
def undistortIndexedPoint (point : ℤ × Q2) (w : ℚ) : ℤ × UPoint :=
  (point.1, undistort point.2 w)

/-- Source `calibrateAndUndistortTrack`: calibrate every point, remove the
non-undistortable ones, undistort the rest. -/
def calibrateAndUndistortTrack (track : List (ℤ × Q2)) (intrinsics : CameraProperties) :
    List (ℤ × UPoint) :=
  let calibrated := track.map (calibrateIndexedPoint · intrinsics.matrixInv)
  let valid := calibrated.filter
    (fun ip => ! indexedPointIsNotUndistortable ip intrinsics.distort_w)
  valid.map (undistortIndexedPoint · intrinsics.distort_w)

/-! ## The ray extent search (`findExtentOfRay`) -/

/-- Errors of the embedded search.  `divByZero` models an unchecked division
by zero (IEEE infinity poisoning the rest of the run), `limitCycle` the fatal
`CHECK(lambda != old_lambda)` of the source, `fuelOut` exhaustion of the fuel
bounding the source's unbounded `while` loops. -/
inductive RunErr where
  | divByZero
  | limitCycle
  | fuelOut
deriving DecidableEq, Repr

/-- Division that errors on a zero denominator (the unchecked `-a3 / b3`
sites of the source). -/
def qdiv (a b : ℚ) : Except RunErr ℚ :=
  if b = 0 then .error .divByZero else .ok (a / b)

/-- The exact value of `cv::norm(x - y) - delta`: the real number
`√d2 - delta` with `d2` the squared pixel distance. -/
structure DistErr where
  d2 : ℚ
  delta : ℚ
deriving DecidableEq, Repr

/-- Decidable sign of `√d2 - delta` (for `0 ≤ d2`): negative iff
`d2 < delta²` with `0 < delta`, zero iff `d2 = delta²` with `0 ≤ delta`. -/
def DistErr.sign (e : DistErr) : ℤ :=
  if e.delta < 0 then 1
  else if e.d2 < e.delta * e.delta then -1
  else if e.d2 = e.delta * e.delta then 0
  else 1

/-- Source `errorInDistanceFromPoint`: project `A + λB`, distort and
uncalibrate, and take the pixel distance from `y` minus `delta`
(represented exactly as a `DistErr`). -/
def errorInDistanceFromPoint (y : Q2) (lambda : ℚ) (A B : Q3) (delta : ℚ)
    (intrinsics : CameraProperties) : DistErr :=
  let X := add3 A (smul3 lambda B)
  let x := imagePointFromHomogeneous X
  let x := intrinsics.distortAndUncalibrate x
  ⟨distSq x y, delta⟩

/-- Model of `boost::math::tools::bisect`: midpoint bisection keeping the end
whose sign matches the lower end, stopping early on an exact zero; the
floating-point `eps_tolerance` stopping rule is modelled by fuel. -/
def bisect (f : ℚ → DistErr) (lo hi : ℚ) : ℕ → ℚ × ℚ
  | 0 => (lo, hi)
  | n + 1 =>
    let mid := (lo + hi) / 2
    if (f mid).sign = 0 then (mid, mid)
    else if (f mid).sign = (f lo).sign then bisect f mid hi n
    else bisect f lo mid n

/-- The doubling pre-search of the vanishing-point branch (source lines
171–180): double `lambda` until the residual is negative; the final doubling
happens on the successful iteration as well. -/
def findBigLambda (resid : ℚ → DistErr) : ℕ → ℚ → Except RunErr ℚ
  | 0, _ => .error .fuelOut
  | n + 1, lambda =>
    if (resid lambda).sign < 0 then .ok (2 * lambda)
    else findBigLambda resid n (2 * lambda)

/-- Context of the quantization loop of `findExtentOfRay`: the other view's
intrinsics, the projected ray `A + λB`, the pixel spacing `delta`, the lower
search bound `lam_min` and the bisection fuel. -/
structure LoopCtx where
  intrinsics : CameraProperties
  A : Q3
  B : Q3
  delta : ℚ
  lam_min : ℚ
  bfuel : ℕ
deriving DecidableEq, Repr

/-- The residual of the loop, anchored at the current pixel position `x`. -/
def residAt (ctx : LoopCtx) (x : Q2) (lambda : ℚ) : DistErr :=
  errorInDistanceFromPoint x lambda ctx.A ctx.B ctx.delta ctx.intrinsics

/-- The distorted pixel position of the ray point at parameter `lambda`
(source lines 222–224). -/
def pointAt (ctx : LoopCtx) (lambda : ℚ) : Q2 :=
  ctx.intrinsics.distortAndUncalibrate
    (imagePointFromHomogeneous (add3 ctx.A (smul3 lambda ctx.B)))

/-- The quantization loop of `findExtentOfRay` (source lines 193–228): while
the residual at `lam_min` is nonnegative, bisect the residual over
`[lam_min, lambda]`, abort on a limit cycle, otherwise append the new
parameter and its pixel position and continue from there. -/
def quantLoop (ctx : LoopCtx) : ℕ → Q2 → ℚ → Except RunErr (List (ℚ × Q2))
  | 0, _, _ => .error .fuelOut
  | fuel + 1, x, lambda =>
    if (residAt ctx x ctx.lam_min).sign < 0 then .ok []
    else
      let lambda' := (bisect (residAt ctx x) ctx.lam_min lambda ctx.bfuel).2
      if lambda' = lambda then .error .limitCycle
      else
        let x' := pointAt ctx lambda'
        (quantLoop ctx fuel x' lambda').map ((lambda', x') :: ·)

/-- The ray direction derived in `findExtentOfRay` (source lines 110–116):
the negative cross product of the two rows of `R_xy - w·R_z`. -/
def rayDirection (w : Q2) (R : Mat3) : Q3 :=
  let a0 := sub3 R.1 (smul3 w.1 R.2.2)
  let a1 := sub3 R.2.1 (smul3 w.2 R.2.2)
  neg3 (cross3 a0 a1)

/-- `A = P · homogeneous(c)` of the per-view loop (source lines 124–128). -/
def projHomCenter (c : Q3) (cam : Camera) : Q3 :=
  mat34vec cam.extrinsics.pmatrix (worldPointToHomogeneous c 1)

/-- `B = P · homogeneous(v, 0)` of the per-view loop (source lines 127–129). -/
def projHomDir (v : Q3) (cam : Camera) : Q3 :=
  mat34vec cam.extrinsics.pmatrix (worldPointToHomogeneous v 0)

/-- The depth component `a3` (source line 137). -/
def a3Of (c : Q3) (cam : Camera) : ℚ := (projHomCenter c cam).2.2

/-- The depth component `b3` (source line 138). -/
def b3Of (v : Q3) (cam : Camera) : ℚ := (projHomDir v cam).2.2

/-- The lower search bound (source lines 152–160): `0` if the ray starts in
front of the camera, otherwise the unchecked division `-a3 / b3`. -/
def lambdaMinFor (a3 b3 : ℚ) : Except RunErr ℚ :=
  if a3 < 0 then .ok 0 else qdiv (-a3) b3

/-- The per-view body of `findExtentOfRay` (source lines 123–231): skip views
with the whole ray behind the camera, compute `lam_min`, establish the anchor
pixel and upper parameter on the vanishing-point or point-at-infinity branch,
then run the quantization loop. -/
def processView (bfuel lfuel dfuel : ℕ) (c v : Q3) (cam : Camera) :
    Except RunErr (List (ℚ × Q2)) :=
  let A := projHomCenter c cam
  let B := projHomDir v cam
  let a3 := A.2.2
  let b3 := B.2.2
  if 0 < a3 ∧ 0 < b3 then .ok []
  else do
    let delta : ℚ := 1
    let lam_min ← lambdaMinFor a3 b3
    let ctx : LoopCtx := ⟨cam.intrinsics, A, B, delta, lam_min, bfuel⟩
    let start ←
      if b3 < 0 then do
        let x := cam.intrinsics.distortAndUncalibrate (imagePointFromHomogeneous B)
        let lambda ← findBigLambda (residAt ctx x) dfuel 1
        pure (x, lambda)
      else do
        let lambda ← qdiv (-a3) b3
        let X := add3 A (smul3 lambda B)
        let x := (X.1, X.2.1)
        let x := cam.intrinsics.uncalibrate
          (distortPointAtInfinity x cam.intrinsics.distort_w)
        pure (x, lambda)
    quantLoop ctx lfuel start.1 start.2

/-- Source `findExtentOfRay`: derive the ray `c + λv` from the calibrated
point and the reference pose, and run the per-view search against every
other camera (a fatal error in any view aborts the whole run, as the
source's `CHECK` aborts the process). -/
def findExtentOfRay (bfuel lfuel dfuel : ℕ) (projection : Q2)
    (camera : CameraPose) : List Camera → Except RunErr (List (List (ℚ × Q2)))
  | [] => .ok []
  | other :: rest => do
    let r ← processView bfuel lfuel dfuel camera.center
      (rayDirection projection camera.rotation) other
    let rs ← findExtentOfRay bfuel lfuel dfuel projection camera rest
    pure (r :: rs)

/-! ## The multiview track builder -/

/-- Source `findMultiviewTrack`: construct a `MultiviewTrack` with
`other_views.size() + 1` empty per-view tracks, run `findExtentOfRay` for
every point of the track, and return the multiview track.  The per-view
candidate sequences computed by `findExtentOfRay` are discarded (the source
never stores them), which is what the modelled return value exhibits. -/
def findMultiviewTrack (bfuel lfuel dfuel : ℕ) (track : List (ℤ × Q2))
    (pose : CameraPose) (other_views : List OtherView) :
    Except RunErr (List (List (ℤ × Q2))) := do
  let other_cameras := other_views.map extractCameraFromOtherView
  let _ ← track.mapM (fun point => findExtentOfRay bfuel lfuel dfuel point.2 pose other_cameras)
  pure (List.replicate (other_views.length + 1) [])

/-- Source `findMultiviewTracks`: run `findMultiviewTrack` on every track,
collecting the results in input order. -/
def findMultiviewTracks (bfuel lfuel dfuel : ℕ) (tracks : List (List (ℤ × Q2)))
    (camera : CameraPose) (other_views : List OtherView) :
    Except RunErr (List (List (List (ℤ × Q2)))) :=
  tracks.mapM (fun track => findMultiviewTrack bfuel lfuel dfuel track camera other_views)

/-! ## Properties of the bisection model -/

theorem DistErr.sign_trichotomy (e : DistErr) :
    e.sign = -1 ∨ e.sign = 0 ∨ e.sign = 1 := by
  unfold DistErr.sign
  split
  · exact Or.inr (Or.inr rfl)
  · split
    · exact Or.inl rfl
    · split
      · exact Or.inr (Or.inl rfl)
      · exact Or.inr (Or.inr rfl)

/-- The bisection bracket stays inside the input bracket and stays ordered. -/
theorem bisect_bounds (f : ℚ → DistErr) (n : ℕ) :
    ∀ lo hi : ℚ, lo ≤ hi →
      lo ≤ (bisect f lo hi n).1 ∧ (bisect f lo hi n).1 ≤ (bisect f lo hi n).2 ∧
        (bisect f lo hi n).2 ≤ hi := by
  induction n with
  | zero => exact fun lo hi h => ⟨le_refl lo, h, le_refl hi⟩
  | succ n ih =>
    intro lo hi h
    have hmid1 : lo ≤ (lo + hi) / 2 := by linarith
    have hmid2 : (lo + hi) / 2 ≤ hi := by linarith
    simp only [bisect]
    split
    · exact ⟨hmid1, le_refl _, hmid2⟩
    · split
      · obtain ⟨a, b, c⟩ := ih ((lo + hi) / 2) hi hmid2
        exact ⟨le_trans hmid1 a, b, c⟩
      · obtain ⟨a, b, c⟩ := ih lo ((lo + hi) / 2) hmid1
        exact ⟨a, b, le_trans c hmid2⟩

/-- Each bisection step halves the bracket: after `n` steps the bracket has
width at most `(hi - lo) / 2 ^ n`. -/
theorem bisect_width (f : ℚ → DistErr) (n : ℕ) :
    ∀ lo hi : ℚ, lo ≤ hi →
      (bisect f lo hi n).2 - (bisect f lo hi n).1 ≤ (hi - lo) / 2 ^ n := by
  induction n with
  | zero => intro lo hi _; simp [bisect]
  | succ n ih =>
    intro lo hi h
    have hmid1 : lo ≤ (lo + hi) / 2 := by linarith
    have hmid2 : (lo + hi) / 2 ≤ hi := by linarith
    have hpow : (0:ℚ) < 2 ^ (n + 1) := by positivity
    have hhalf : ∀ a b : ℚ, a - b = (hi - lo) / 2 → (a - b) / 2 ^ n = (hi - lo) / 2 ^ (n + 1) := by
      intro a b hab
      rw [hab, div_div, ← pow_succ']
    simp only [bisect]
    split
    · simp only [sub_self]
      exact div_nonneg (by linarith) (by positivity)
    · split
      · calc (bisect f ((lo + hi) / 2) hi n).2 - (bisect f ((lo + hi) / 2) hi n).1
            ≤ (hi - (lo + hi) / 2) / 2 ^ n := ih _ _ hmid2
          _ = (hi - lo) / 2 ^ (n + 1) := hhalf _ _ (by ring)
      · calc (bisect f lo ((lo + hi) / 2) n).2 - (bisect f lo ((lo + hi) / 2) n).1
            ≤ ((lo + hi) / 2 - lo) / 2 ^ n := ih _ _ hmid1
          _ = (hi - lo) / 2 ^ (n + 1) := hhalf _ _ (by ring)

/-- If the residual is strictly positive at the lower end and strictly
negative at the upper end, the returned bracket still brackets the sign
change: nonnegative sign at its lower end, nonpositive sign at its upper
end. -/
theorem bisect_signs (f : ℚ → DistErr) (n : ℕ) :
    ∀ lo hi : ℚ, (f lo).sign = 1 → (f hi).sign = -1 →
      0 ≤ (f (bisect f lo hi n).1).sign ∧ (f (bisect f lo hi n).2).sign ≤ 0 := by
  induction n with
  | zero => intro lo hi hlo hhi; rw [bisect, hlo, hhi]; exact ⟨one_pos.le, by norm_num⟩
  | succ n ih =>
    intro lo hi hlo hhi
    simp only [bisect]
    split
    · rename_i h0
      rw [h0]
      exact ⟨le_refl 0, le_refl 0⟩
    · rename_i h0
      split
      · rename_i hsame
        exact ih _ _ (hsame.trans hlo) hhi
      · rename_i hdiff
        have hneg : (f ((lo + hi) / 2)).sign = -1 := by
          rcases DistErr.sign_trichotomy (f ((lo + hi) / 2)) with h | h | h
          · exact h
          · exact absurd h h0
          · exact absurd (h.trans hlo.symm) hdiff
        exact ih _ _ hlo hneg

/-! ## The quantization-loop invariant -/

/-- The relation holding between consecutive states of the quantization
loop: writing `br` for the bisection bracket computed from the previous
state `a` (anchor pixel `a.2`, upper parameter `a.1`), the next candidate
`b` was generated at the upper end of `br`, strictly below `a.1` and at least
`lam_min`; its pixel position is the projected, distorted position at its
parameter; the bracket has width at most `(a.1 - lam_min) / 2 ^ bfuel`; and
whenever the residual anchored at `a.2` is strictly positive at `lam_min`
and strictly negative at `a.1`, the bracket still brackets the zero of that
residual — the candidate is `δ` away from the previous position up to the
bisection tolerance. -/
def Adj (ctx : LoopCtx) (a b : ℚ × Q2) : Prop :=
  let br := bisect (residAt ctx a.2) ctx.lam_min a.1 ctx.bfuel
  ctx.lam_min ≤ br.1 ∧ br.1 ≤ b.1 ∧ b.1 < a.1 ∧ b.1 = br.2 ∧
    b.2 = pointAt ctx b.1 ∧
    b.1 - br.1 ≤ (a.1 - ctx.lam_min) / 2 ^ ctx.bfuel ∧
    ((residAt ctx a.2 ctx.lam_min).sign = 1 → (residAt ctx a.2 a.1).sign = -1 →
      0 ≤ (residAt ctx a.2 br.1).sign ∧ (residAt ctx a.2 br.2).sign ≤ 0)

/-- Loop invariant of `quantLoop`: a successful run from a state whose upper
parameter is at least `lam_min` produces a candidate list that, prefixed
with the starting state, is a chain of `Adj` steps. -/
theorem quantLoop_chain (ctx : LoopCtx) :
    ∀ (fuel : ℕ) (x : Q2) (lam : ℚ) (L : List (ℚ × Q2)),
      ctx.lam_min ≤ lam → quantLoop ctx fuel x lam = .ok L →
      List.Chain' (Adj ctx) ((lam, x) :: L) := by
  intro fuel
  induction fuel with
  | zero => intro x lam L _ h; exact absurd h (by simp [quantLoop])
  | succ n ih =>
    intro x lam L hle h
    rw [quantLoop] at h
    by_cases hneg : (residAt ctx x ctx.lam_min).sign < 0
    · rw [if_pos hneg] at h
      obtain rfl : ([] : List (ℚ × Q2)) = L := by injection h
      exact List.chain'_singleton _
    · rw [if_neg hneg] at h
      simp only at h
      by_cases heq : (bisect (residAt ctx x) ctx.lam_min lam ctx.bfuel).2 = lam
      · rw [if_pos heq] at h; exact absurd h (by simp)
      · rw [if_neg heq] at h
        set lam' := (bisect (residAt ctx x) ctx.lam_min lam ctx.bfuel).2 with hlam'
        cases hq : quantLoop ctx n (pointAt ctx lam') lam' with
        | error e => rw [hq] at h; exact absurd h (by simp [Except.map])
        | ok L' =>
          rw [hq] at h
          simp only [Except.map, Except.ok.injEq] at h
          subst h
          have hb := bisect_bounds (residAt ctx x) ctx.bfuel ctx.lam_min lam hle
          have hle' : ctx.lam_min ≤ lam' := le_trans hb.1 hb.2.1
          refine List.chain'_cons.mpr ⟨?_, ih (pointAt ctx lam') lam' L' hle' hq⟩
          refine ⟨hb.1, hb.2.1, lt_of_le_of_ne hb.2.2 heq, rfl, rfl, ?_, ?_⟩
          · exact bisect_width (residAt ctx x) ctx.bfuel ctx.lam_min lam hle
          · intro h1 h2
            exact bisect_signs (residAt ctx x) ctx.bfuel ctx.lam_min lam h1 h2

/-! ## Concrete test configurations

A reference camera at the origin with identity rotation and identity
intrinsics, observing the calibrated point `(0,0)`; the derived ray is
`{(0,0,-λ) : λ ≥ 0}`.  The other cameras below exercise the branches of the
per-view search. -/

def intrId : CameraProperties := ⟨1, 1, 0, 0, 0⟩

def idMat3 : Mat3 := ((1, 0, 0), (0, 1, 0), (0, 0, 1))

def refPose : CameraPose := ⟨idMat3, (0, 0, 0)⟩

/-- An identity-rotation camera at `(7/2, 0, 1)`: the ray starts in front
(`a3 = -1 < 0`), has a vanishing point (`b3 = -1 < 0`) and quantizes into
three candidates. -/
def cam35 : Camera := ⟨intrId, ⟨idMat3, (7/2, 0, 1)⟩⟩

/-- The loop context `findExtentOfRay` builds for `cam35`. -/
def ctx0 : LoopCtx := ⟨intrId, (-7/2, 0, -1), (0, 0, -1), 1, 0, 10⟩

/-- The candidate sequence the search computes for `cam35` (pixel spacing 1
starting from the vanishing point `(0,0)`, ordered from the far end of the
ray toward `lam_min = 0`). -/
def seq35 : List (ℚ × Q2) :=
  [(5/2, (1, 0)), (385/512, (1792/897, 0)), (88165/524288, (1835008/612453, 0))]

/-- A camera rotated by 180° about the x-axis at `(0, 0, 1)`: the whole ray
is behind it (`a3 = 1 > 0`, `b3 = 1 > 0`). -/
def camBehind : Camera := ⟨intrId, ⟨((1, 0, 0), (0, -1, 0), (0, 0, -1)), (0, 0, 1)⟩⟩

/-- An identity-rotation camera at `(0, 0, -1)`: the ray starts behind it
(`a3 = 1 ≥ 0`) and has a vanishing point (`b3 = -1`). -/
def camB : Camera := ⟨intrId, ⟨idMat3, (0, 0, -1)⟩⟩

/-- A camera rotated by 90° about the x-axis at `(0, -1, 0)`: `a3 = 1 > 0`
and `b3 = 0`, so the unchecked division `-a3 / b3` divides by zero. -/
def camDiv : Camera := ⟨intrId, ⟨((1, 0, 0), (0, 0, -1), (0, 1, 0)), (0, -1, 0)⟩⟩

/-- A loop state on which the bisection returns its upper end unchanged:
the residual anchored at the far-away pixel `(100, 0)` is positive at every
midpoint the bisection visits, so the bracket walks right and returns
`(31/32, 1)` — the limit-cycle guard must fire. -/
def ctxLC : LoopCtx := ⟨intrId, (0, 0, -1), (1, 0, 0), 1, 0, 5⟩

/-! ## Claim theorems -/

/-- C4: for every input to the per-view search of `findExtentOfRay` with
`a3 > 0` and `b3 > 0` (third components of `A = P·homogeneous(c)` and
`B = P·homogeneous(v, 0)`), the whole ray is treated as behind that camera
and the view's result is the empty candidate sequence, returned as a normal
(non-error) result. -/
theorem findExtentOfRay_behind_camera_empty (bfuel lfuel dfuel : ℕ) (c v : Q3)
    (cam : Camera) (ha : 0 < a3Of c cam) (hb : 0 < b3Of v cam) :
    processView bfuel lfuel dfuel c v cam = .ok [] := by
  unfold a3Of at ha
  unfold b3Of at hb
  unfold processView
  exact if_pos ⟨ha, hb⟩

/-- Witness for C4: `camBehind` has `a3 = 1 > 0` and `b3 = 1 > 0` for the
ray `(0,0,0) + λ(0,0,-1)`, and the search returns the empty sequence. -/
theorem findExtentOfRay_behind_camera_empty_witness :
    0 < a3Of (0, 0, 0) camBehind ∧ 0 < b3Of (0, 0, -1) camBehind ∧
      processView 10 6 6 (0, 0, 0) (0, 0, -1) camBehind = .ok [] :=
  ⟨by with_unfolding_all decide, by with_unfolding_all decide,
    findExtentOfRay_behind_camera_empty 10 6 6 (0, 0, 0) (0, 0, -1) camBehind
      (by with_unfolding_all decide) (by with_unfolding_all decide)⟩

/-- C5: for every view not skipped as entirely behind the camera, the lower
search bound computed by `findExtentOfRay` is `0` when `a3 < 0`, and the
division `-a3 / b3` otherwise (well-defined when `b3 ≠ 0`). -/
theorem findExtentOfRay_lambda_min (c v : Q3) (cam : Camera)
    (_hskip : ¬(0 < a3Of c cam ∧ 0 < b3Of v cam)) :
    (a3Of c cam < 0 → lambdaMinFor (a3Of c cam) (b3Of v cam) = .ok 0) ∧
      (0 ≤ a3Of c cam → b3Of v cam ≠ 0 →
        lambdaMinFor (a3Of c cam) (b3Of v cam) =
          .ok (-(a3Of c cam) / b3Of v cam)) := by
  constructor
  · intro h
    simp [lambdaMinFor, if_pos h]
  · intro h hb
    simp [lambdaMinFor, qdiv, not_lt.mpr h, hb]

/-- Witness for C5: `camB` gives `a3 = 1`, `b3 = -1` (not skipped since
`b3 < 0`), and the lower bound is `-1 / -1 = 1`. -/
theorem findExtentOfRay_lambda_min_witness :
    ¬(0 < a3Of (0, 0, 0) camB ∧ 0 < b3Of (0, 0, -1) camB) ∧
      ((a3Of (0, 0, 0) camB < 0 →
          lambdaMinFor (a3Of (0, 0, 0) camB) (b3Of (0, 0, -1) camB) = .ok 0) ∧
        (0 ≤ a3Of (0, 0, 0) camB → b3Of (0, 0, -1) camB ≠ 0 →
          lambdaMinFor (a3Of (0, 0, 0) camB) (b3Of (0, 0, -1) camB) =
            .ok (-(a3Of (0, 0, 0) camB) / b3Of (0, 0, -1) camB))) :=
  ⟨by with_unfolding_all decide, findExtentOfRay_lambda_min (0, 0, 0) (0, 0, -1) camB (by with_unfolding_all decide)⟩

/-- C9: in the quantization loop of `findExtentOfRay`, whenever the loop
does not terminate (the residual at `lam_min` is nonnegative) and the
bisection returns an upper end equal to the previous upper bracket, the
search aborts with the fatal limit-cycle error instead of appending a
candidate or returning a normal result. -/
theorem quantLoop_limit_cycle (ctx : LoopCtx) (fuel : ℕ) (x : Q2) (lam : ℚ)
    (hpos : ¬(residAt ctx x ctx.lam_min).sign < 0)
    (hcyc : (bisect (residAt ctx x) ctx.lam_min lam ctx.bfuel).2 = lam) :
    quantLoop ctx (fuel + 1) x lam = .error .limitCycle := by
  rw [quantLoop, if_neg hpos]
  simp only
  rw [if_pos hcyc]

/-- Witness for C9: on the state `ctxLC` with anchor `(100, 0)` and upper
bracket `1`, the residual is positive at `lam_min = 0` and at every midpoint
the bisection visits, so the bisection returns `(31/32, 1)` and the loop
aborts with the limit-cycle error. -/
theorem quantLoop_limit_cycle_witness :
    ¬(residAt ctxLC (100, 0) ctxLC.lam_min).sign < 0 ∧
      (bisect (residAt ctxLC (100, 0)) ctxLC.lam_min 1 ctxLC.bfuel).2 = 1 ∧
      quantLoop ctxLC 3 (100, 0) 1 = .error .limitCycle :=
  ⟨by with_unfolding_all decide, by with_unfolding_all decide,
    quantLoop_limit_cycle ctxLC 2 (100, 0) 1 (by with_unfolding_all decide) (by with_unfolding_all decide)⟩

/-- C10: the divisions `-a3 / b3` in `findExtentOfRay` are performed without
checking `b3 ≠ 0`.  For the camera `camDiv` the ray `(0,0,0) + λ(0,0,-1)`
gives `a3 = 1 > 0` and `b3 = 0`, which the both-positive skip does not
catch, and the run reaches a division by zero (modelled as the
`divByZero` error; in IEEE arithmetic the quotient is an infinity that
poisons the rest of the computation). -/
theorem findExtentOfRay_division_by_zero :
    a3Of (0, 0, 0) camDiv = 1 ∧ b3Of (0, 0, -1) camDiv = 0 ∧
      rayDirection (0, 0) refPose.rotation = (0, 0, -1) ∧
      findExtentOfRay 10 6 6 (0, 0) refPose [camDiv] = .error .divByZero := by
  refine ⟨by with_unfolding_all decide, by with_unfolding_all decide,
    by with_unfolding_all decide, by with_unfolding_all rfl⟩

/-- C3 (amended): every candidate sequence produced by the quantization loop
of the ray extent search is ordered *decreasing* along the ray parameter λ —
from the far end of the ray toward `lam_min` — provided the loop starts at
an upper parameter at least `lam_min`. -/
theorem quantLoop_lambdas_decreasing (ctx : LoopCtx) (fuel : ℕ) (x : Q2)
    (lam : ℚ) (L : List (ℚ × Q2)) (hle : ctx.lam_min ≤ lam)
    (hrun : quantLoop ctx fuel x lam = .ok L) :
    List.Chain' (fun p q : ℚ => q < p) (lam :: L.map Prod.fst) := by
  have hchain := quantLoop_chain ctx fuel x lam L hle hrun
  have h2 : List.Chain' (fun p q : ℚ => q < p) (((lam, x) :: L).map Prod.fst) :=
    List.chain'_map_of_chain' (Prod.fst : ℚ × Q2 → ℚ)
      (fun a b h => h.2.2.1) hchain
  simpa using h2

/-- Witness for C3: the concrete run against `cam35` produces the three
candidates `seq35`, whose parameters `5/2 > 385/512 > 88165/524288` decrease
from the far end toward `lam_min = 0`. -/
theorem quantLoop_lambdas_decreasing_witness :
    ctx0.lam_min ≤ 8 ∧ quantLoop ctx0 6 (0, 0) 8 = .ok seq35 ∧
      List.Chain' (fun p q : ℚ => q < p) (8 :: seq35.map Prod.fst) :=
  ⟨by with_unfolding_all decide, by with_unfolding_all rfl,
    quantLoop_lambdas_decreasing ctx0 6 (0, 0) 8 seq35
      (by with_unfolding_all decide) (by with_unfolding_all rfl)⟩

/-- Counterexample to C3 as stated: the ray extent search against `cam35`
produces the candidate sequence `seq35`, whose consecutive generation
parameters are *not* increasing (`5/2 > 385/512`). -/
theorem quantLoop_lambdas_not_increasing :
    processView 10 6 6 (0, 0, 0) (0, 0, -1) cam35 = .ok seq35 ∧
      ¬ List.Chain' (fun p q : ℚ => p < q) (seq35.map Prod.fst) := by
  constructor
  · with_unfolding_all rfl
  · intro h
    have hmap : seq35.map Prod.fst = [5/2, 385/512, 88165/524288] := by
      with_unfolding_all rfl
    rw [hmap] at h
    rcases List.chain'_cons.mp h with ⟨h1, _⟩
    norm_num at h1

/-- C6: along every successful run of the quantization loop of
`findExtentOfRay` (pixel spacing `delta`, which the caller fixes to 1),
every pair of consecutive candidates satisfies `Adj`: the later candidate
was generated at the upper end of a bisection bracket of the residual
`pixel_distance(project_and_distort(A + λB), previous point) - delta`
anchored at the previous candidate, the bracket has width at most
`(λ_prev - lam_min) / 2 ^ bfuel`, and whenever the residual is strictly
positive at `lam_min` and strictly negative at `λ_prev` the bracket
brackets the residual's zero — consecutive candidates are `delta` pixels
apart up to the bisection tolerance. -/
theorem quantLoop_spacing (ctx : LoopCtx) (fuel : ℕ) (x : Q2) (lam : ℚ)
    (L : List (ℚ × Q2)) (hle : ctx.lam_min ≤ lam)
    (hrun : quantLoop ctx fuel x lam = .ok L) :
    List.Chain' (Adj ctx) ((lam, x) :: L) :=
  quantLoop_chain ctx fuel x lam L hle hrun

/-- Witness for C6: the concrete run against `cam35`. -/
theorem quantLoop_spacing_witness :
    ctx0.lam_min ≤ 8 ∧ quantLoop ctx0 6 (0, 0) 8 = .ok seq35 ∧
      List.Chain' (Adj ctx0) ((8, (0, 0)) :: seq35) :=
  ⟨by with_unfolding_all decide, by with_unfolding_all rfl,
    quantLoop_spacing ctx0 6 (0, 0) 8 seq35
      (by with_unfolding_all decide) (by with_unfolding_all rfl)⟩

/-- C7: `findExtentOfRay` derives the ray direction `v` as the negative of
the cross product of the two rows of the 2×3 system `R_xy - w·R_z`; the
direction lies in the null space of that system (both rows are orthogonal to
it); and for every projection matrix `P` the homogeneous coordinate
`A + λB` searched by the per-view loop equals the projection of the world
point `c + λv` of the ray through the reference center `c` — the searched
set is exactly the projection of `{c + λv}`. -/
theorem findExtentOfRay_ray_derivation (w : Q2) (R : Mat3) (c : Q3)
    (P : Mat34) (lam : ℚ) :
    rayDirection w R =
      neg3 (cross3 (sub3 R.1 (smul3 w.1 R.2.2)) (sub3 R.2.1 (smul3 w.2 R.2.2))) ∧
    dot3 (sub3 R.1 (smul3 w.1 R.2.2)) (rayDirection w R) = 0 ∧
    dot3 (sub3 R.2.1 (smul3 w.2 R.2.2)) (rayDirection w R) = 0 ∧
    mat34vec P (worldPointToHomogeneous (add3 c (smul3 lam (rayDirection w R))) 1) =
      add3 (mat34vec P (worldPointToHomogeneous c 1))
        (smul3 lam (mat34vec P (worldPointToHomogeneous (rayDirection w R) 0))) := by
  obtain ⟨⟨r00, r01, r02⟩, ⟨r10, r11, r12⟩, ⟨r20, r21, r22⟩⟩ := R
  obtain ⟨w1, w2⟩ := w
  obtain ⟨c1, c2, c3⟩ := c
  obtain ⟨⟨p00, p01, p02, p03⟩, ⟨p10, p11, p12, p13⟩, ⟨p20, p21, p22, p23⟩⟩ := P
  refine ⟨rfl, ?_, ?_, ?_⟩
  · simp only [rayDirection, sub3, smul3, neg3, cross3, dot3]
    ring
  · simp only [rayDirection, sub3, smul3, neg3, cross3, dot3]
    ring
  · simp only [rayDirection, sub3, smul3, neg3, cross3, add3, mat34vec, dot4,
      worldPointToHomogeneous, Prod.mk.injEq]
    refine ⟨by ring, by ring, by ring⟩

/-- C8: `calibrateAndUndistortTrack` equals the single pass that keeps
exactly the input points whose calibrated coordinate is undistortable and
undistorts the calibrated coordinate of each kept point; consequently the
output's frame-index list is exactly the input's frame-index list filtered
by that test — surviving frames keep their index and dropped frames are
absent, not replaced. -/
theorem calibrateAndUndistortTrack_pipeline (track : List (ℤ × Q2))
    (intrinsics : CameraProperties) :
    calibrateAndUndistortTrack track intrinsics =
      (track.filter (fun ip =>
          isUndistortable (calibrateIndexedPoint ip intrinsics.matrixInv).2
            intrinsics.distort_w)).map
        (fun ip => undistortIndexedPoint (calibrateIndexedPoint ip intrinsics.matrixInv)
          intrinsics.distort_w) ∧
    (calibrateAndUndistortTrack track intrinsics).map Prod.fst =
      (track.filter (fun ip =>
          isUndistortable (calibrateIndexedPoint ip intrinsics.matrixInv).2
            intrinsics.distort_w)).map Prod.fst := by
  have key : calibrateAndUndistortTrack track intrinsics =
      (track.filter (fun ip =>
          isUndistortable (calibrateIndexedPoint ip intrinsics.matrixInv).2
            intrinsics.distort_w)).map
        (fun ip => undistortIndexedPoint (calibrateIndexedPoint ip intrinsics.matrixInv)
          intrinsics.distort_w) := by
    unfold calibrateAndUndistortTrack
    induction track with
    | nil => rfl
    | cons hd tl ih =>
      simp only [List.map_cons, List.filter_cons, indexedPointIsNotUndistortable,
        Bool.not_not] at ih ⊢
      by_cases h : isUndistortable (calibrateIndexedPoint hd intrinsics.matrixInv).2
          intrinsics.distort_w = true
      · rw [if_pos h, if_pos h, List.map_cons, List.map_cons, ih]
      · rw [if_neg h, if_neg h, ih]
  refine ⟨key, ?_⟩
  rw [key, List.map_map]
  rfl

/-- C2 (amended): `isUndistortable` returns **false** for every point whose
distorted radius exceeds the domain bound of the division-model inversion
(the discriminant `1 - 4 w |x|²` is negative), and `calibrateAndUndistortTrack`
drops exactly the points on which `isUndistortable` (tested on the calibrated
coordinate) returns false: the output holds an entry exactly when some input
point's calibrated coordinate passes `isUndistortable`, and every output
point is `undistort` of a calibrated coordinate that passed the test, so
`undistort` is never applied to a dropped point. -/
theorem calibrateAndUndistortTrack_drops_not_undistortable
    (intrinsics : CameraProperties) (track : List (ℤ × Q2)) :
    (∀ x : Q2, 1 - 4 * intrinsics.distort_w * normSq x < 0 →
      isUndistortable x intrinsics.distort_w = false) ∧
    (∀ e : ℤ × UPoint, e ∈ calibrateAndUndistortTrack track intrinsics ↔
      ∃ p : Q2, (e.1, p) ∈ track.map (calibrateIndexedPoint · intrinsics.matrixInv) ∧
        isUndistortable p intrinsics.distort_w = true ∧
        e.2 = undistort p intrinsics.distort_w) := by
  constructor
  · intro x h
    simp only [isUndistortable, decide_eq_false_iff_not, not_le]
    exact h
  · intro e
    unfold calibrateAndUndistortTrack
    simp only [List.mem_map, List.mem_filter, indexedPointIsNotUndistortable,
      Bool.not_not]
    constructor
    · rintro ⟨a, ⟨ha, hq⟩, rfl⟩
      refine ⟨a.2, ⟨?_, hq, rfl⟩⟩
      simpa using ha
    · rintro ⟨p, hp, hu, he⟩
      refine ⟨(e.1, p), ⟨hp, hu⟩, ?_⟩
      obtain ⟨e1, e2⟩ := e
      simp only [undistortIndexedPoint] at he ⊢
      rw [← he]

/-- Counterexample to C2 as stated: with identity intrinsics and distortion
parameter `w = 1/100`, the point `(10, 0)` is outside the inversion domain
(`1 - 4·(1/100)·100 = -3 < 0`) yet `isUndistortable` returns **false** for
it, not true; and the calibrator keeps frame 0, whose calibrated point
`(1, 0)` has `isUndistortable = true`, instead of dropping it — it drops
exactly the `false` points (frame 1). -/
theorem calibrateAndUndistortTrack_polarity_counterexample :
    isUndistortable (10, 0) ((1 : ℚ)/100) = false ∧
      isUndistortable (1, 0) ((1 : ℚ)/100) = true ∧
      (calibrateAndUndistortTrack [(0, ((1 : ℚ), (0 : ℚ))), (1, (10, 0))]
          ⟨1, 1, 0, 0, 1/100⟩).map Prod.fst = [0] := by
  refine ⟨by with_unfolding_all decide, by with_unfolding_all decide,
    by with_unfolding_all rfl⟩

/-- C1 (code defect): on a track with one calibrated point `(0, 0)` and one
other view `cam35`, `findExtentOfRay` computes the non-empty candidate
sequence `seq35` for that view, yet `findMultiviewTrack` returns a
`MultiviewTrack` whose per-view slots are all empty: the builder discards
the per-view candidate sequences instead of collecting them. -/
theorem findMultiviewTrack_discards_candidates :
    findExtentOfRay 10 6 6 (0, 0) refPose [cam35] = .ok [seq35] ∧
      seq35 ≠ [] ∧
      findMultiviewTrack 10 6 6 [(0, ((0 : ℚ), (0 : ℚ)))] refPose
        [⟨1, cam35⟩] = .ok [[], []] := by
  refine ⟨by with_unfolding_all rfl, by with_unfolding_all decide,
    by with_unfolding_all rfl⟩

/-- Witness for the amended C2: the characterization instantiated at the
concrete two-point track and `w = 1/100` intrinsics of the counterexample. -/
theorem calibrateAndUndistortTrack_drops_not_undistortable_witness :
    (∀ x : Q2, 1 - 4 * (⟨1, 1, 0, 0, 1/100⟩ : CameraProperties).distort_w * normSq x < 0 →
      isUndistortable x (⟨1, 1, 0, 0, 1/100⟩ : CameraProperties).distort_w = false) ∧
    (∀ e : ℤ × UPoint,
      e ∈ calibrateAndUndistortTrack [(0, ((1 : ℚ), (0 : ℚ))), (1, (10, 0))]
          ⟨1, 1, 0, 0, 1/100⟩ ↔
        ∃ p : Q2, (e.1, p) ∈ [(0, ((1 : ℚ), (0 : ℚ))), (1, (10, 0))].map
            (calibrateIndexedPoint · (⟨1, 1, 0, 0, 1/100⟩ : CameraProperties).matrixInv) ∧
          isUndistortable p (⟨1, 1, 0, 0, 1/100⟩ : CameraProperties).distort_w = true ∧
          e.2 = undistort p (⟨1, 1, 0, 0, 1/100⟩ : CameraProperties).distort_w) :=
  calibrateAndUndistortTrack_drops_not_undistortable ⟨1, 1, 0, 0, 1/100⟩
    [(0, ((1 : ℚ), (0 : ℚ))), (1, (10, 0))]
